import Mathlib

/-!
Verification of the `lsh-rs` locality-sensitive-hashing library.

The development shallowly embeds the core of the library:
* `src/hash.rs` — the hash families `SignRandomProjections`, `L2`, `MIPS`;
* `src/multi_probe.rs` — the step-wise multi-probe generator;
* `src/lsh/lsh.rs` — the `LSH` coordinator (store, query, delete, dump/load).

32-bit floats are modelled as exact rationals (`ℚ`); all concrete inputs used
in witnesses and counterexamples are chosen so that the `f32` computation of
the source is exact, hence agrees with the rational model.  The `i8` hash
primitives are modelled as `ℤ` (no input in this development approaches the
`i8` range).  Code of the repository that is not among the provided sources
(the storage backends in `src/table/mem.rs`, the `Error` enum in `lib.rs`,
`l2_norm` in `dist.rs`, `create_rng` in `utils.rs`) is modelled from the
specification; each such definition is marked `Modelled from the spec`.
Randomness (`create_rng` and the sampled matrices) is external to the sources,
so hashers are parametrised by their sampled matrices/offsets instead of a
seed.
-/

namespace LshRs

/-- The `FloatSize` type of the crate (`f32`), modelled as exact rationals. -/
abbrev FloatSize := ℚ

/-- `pub type HashPrimitive = i8;` (`src/hash.rs`), modelled as `ℤ`. -/
abbrev HashPrimitive := ℤ

/-- `pub type Hash = Vec<HashPrimitive>;` (`src/hash.rs`). -/
abbrev Hash := List HashPrimitive

/-- A data point (`DataPoint = Vec<FloatSize>`). -/
abbrev DataPoint := List FloatSize

/-- Modelled from the spec: the `Error` enum of `lib.rs` is not among the
provided sources.  `lsh/lsh.rs` uses `Error::Failed(String)` (dimension
mismatch) and `Error::NotFound` (absent bucket key); §7 of the spec further
lists `NotFitted` (MIPS used before `fit`, a panic in `src/hash.rs`). -/
inductive Error where
  | Failed (msg : String)
  | NotFound
  | NotFitted
deriving DecidableEq, Repr

/-- Dot product of two rational vectors (`ndarray` `dot` on 1-d views). -/
def dotList (xs ys : List ℚ) : ℚ :=
  (List.zip xs ys).foldl (fun acc p => acc + p.1 * p.2) 0

/-- Matrix–vector product `a · v` for a row-major matrix (`ndarray` `dot`). -/
def matDotVec (a : List (List ℚ)) (v : List ℚ) : List ℚ :=
  a.map (fun row => dotList row v)

/-- `mᵀ · v` for a matrix stored row-major with `k` columns
(`self.hyperplanes.t().dot(&v)` in `src/hash.rs`). -/
def matTDotVec (m : List (List ℚ)) (v : List ℚ) (k : ℕ) : List ℚ :=
  (List.range k).map (fun j =>
    (List.zip m v).foldl (fun acc rc => acc + rc.1.getD j 0 * rc.2) 0)

/-- Integer square root by bounded search; used only through `ratSqrt` at
arguments that are perfect squares. -/
def natSqrtAux (n : ℕ) : ℕ :=
  (List.range (n + 1)).foldl (fun a k => if k * k ≤ n then k else a) 0

/-- Square root on `ℚ`, exact on squares of rationals.  Every use in this
development is at such an argument, where it agrees with the real-valued
(`f32`) square root of the source. -/
def ratSqrt (q : ℚ) : ℚ :=
  (natSqrtAux q.num.toNat : ℚ) / (natSqrtAux q.den : ℚ)

/-- Modelled from the spec: `l2_norm` lives in `src/dist.rs`, which is not
among the provided sources; per §4.1/§4.3 of the spec it is the Euclidean
norm `sqrt (Σ xᵢ²)`. -/
def l2_norm (v : List ℚ) : ℚ :=
  ratSqrt (v.foldl (fun a x => a + x * x) 0)

/-- `SignRandomProjections` (`src/hash.rs`): the `dim × k` hyperplane matrix.
The matrix is standard-normal sampled in the source (`utils::create_rng` is
not among the provided sources), so it is a parameter here. -/
structure SignRandomProjections where
  hyperplanes : List (List ℚ)

/-- `SignRandomProjections::hash_vec` (`src/hash.rs` lines 42–53): the bit at
position `i` is `1` iff component `i` of `hyperplanesᵀ · v` is `> 0`.  The
hash length is the column count of the hyperplane matrix
(`len_of(Axis(1))`). -/
def SignRandomProjections.hash_vec (s : SignRandomProjections) (v : DataPoint) : Hash :=
  (matTDotVec s.hyperplanes v (s.hyperplanes.headD []).length).map
    (fun ai => if ai > 0 then 1 else 0)

/-- `L2` (`src/hash.rs`): `a` is the `n_projections × dim` matrix, `b` the
offset vector, `r` the slot width.  `a` and `b` are randomly sampled in the
source, so they are parameters here. -/
structure L2 where
  a : List (List ℚ)
  r : ℚ
  b : List ℚ
  n_projections : ℕ

/-- `L2::hash_and_cast_vec` (`src/hash.rs` lines 94–99):
`((a·v + b) / r)` floored component-wise and cast to `HashPrimitive`. -/
def L2.hash_and_cast_vec (s : L2) (v : DataPoint) : Hash :=
  (List.zipWith (· + ·) (matDotVec s.a v) s.b).map (fun x => ⌊x / s.r⌋)

/-- `MIPS` (`src/hash.rs` lines 117–124).  `M = 0` until `fit` has run. -/
structure MIPS where
  U : ℚ
  M : ℚ
  m : ℕ
  dim : ℕ
  hasher : L2

/-- `MIPS::tranform_put` (`src/hash.rs` lines 149–166; the name keeps the
source's spelling).  The `panic!("MIPS is not fitted")` taken when `M == 0`
is modelled as `Except.error .NotFitted` (§7 of the spec).  The source
computes `l2_norm(&x_new).powf(2.)`; since `‖w‖² = Σ wᵢ²` exactly, the
square of the norm is taken directly as the sum of squares. -/
def MIPS.tranform_put (s : MIPS) (x : DataPoint) : Except Error DataPoint :=
  if s.M = 0 then .error .NotFitted
  else
    let x_new := x.map (fun xi => xi / s.M * s.U)
    let norm_sq := x_new.foldl (fun a w => a + w * w) 0
    .ok (x_new ++ (List.range s.m).map (fun i => norm_sq ^ (i + 1)))

/-- `MIPS::transform_query` (`src/hash.rs` lines 168–181): normalize the
query to unit norm and append `m` components equal to `0.5`. -/
def MIPS.transform_query (s : MIPS) (x : DataPoint) : DataPoint :=
  x.map (fun xi => xi / l2_norm x) ++ List.replicate s.m (1 / 2 : ℚ)

/-- The `VecHash` trait (`src/hash.rs` lines 12–19): a hasher is a pair of
total hash functions.  The trait is public, so arbitrary instances are part
of the library surface; the concrete families instantiate it below. -/
structure VecHash where
  hash_vec_query : DataPoint → Hash
  hash_vec_put : DataPoint → Hash

/-- `impl VecHash for SignRandomProjections` (`src/hash.rs` lines 56–64):
both paths are `hash_vec`. -/
def SignRandomProjections.toVecHash (s : SignRandomProjections) : VecHash :=
  ⟨s.hash_vec, s.hash_vec⟩

/-- `impl VecHash for L2` (`src/hash.rs` lines 102–114): both paths are
`hash_and_cast_vec`. -/
def L2.toVecHash (s : L2) : VecHash :=
  ⟨s.hash_and_cast_vec, s.hash_and_cast_vec⟩

/-- `impl VecHash for MIPS` (`src/hash.rs` lines 184–194): the query path
transforms with `transform_query`, the put path with `tranform_put`; both
then delegate to the inner `L2` hasher's query path.  In the unfitted case
the source panics inside `tranform_put`; the `[]` branch is unreachable for
fitted hashers and stands for that divergence. -/
def MIPS.toVecHash (s : MIPS) : VecHash where
  hash_vec_query := fun v => s.hasher.hash_and_cast_vec (s.transform_query v)
  hash_vec_put := fun v =>
    match s.tranform_put v with
    | .ok p => s.hasher.hash_and_cast_vec p
    | .error _ => []

/-- All `k`-element subsets of a list, in the order of
`itertools::combinations` (`src/multi_probe.rs`): lexicographic in the
positions of the chosen elements. -/
def combinations : ℕ → List α → List (List α)
  | 0, _ => [[]]
  | _ + 1, [] => []
  | k + 1, x :: xs => (combinations k xs).map (x :: ·) ++ combinations (k + 1) xs

/-- `step_wise_perturb` (`src/multi_probe.rs` lines 47–67): enumerate the
`n_perturbations`-element combinations of `0..hash_length*2` and map each
chosen index `i` to `(i/2, -1)` when `i > hash_length - 1`
(the `switchpoint`), else to `(i, 1)`. -/
def step_wise_perturb (hash_length n_perturbations : ℕ) :
    List (List (ℕ × HashPrimitive)) :=
  (combinations n_perturbations (List.range (hash_length * 2))).map
    (fun comb => comb.map (fun i =>
      if i > hash_length - 1 then (i / 2, (-1 : ℤ)) else (i, 1)))

/-- One perturbation applied to a zero vector (`src/multi_probe.rs` lines
89–92): `new_perturb[idx] += shift` for each pair. -/
def apply_perturb (hash_len : ℕ) (v : List (ℕ × HashPrimitive)) : List HashPrimitive :=
  v.foldl (fun np p => np.set p.1 (np.getD p.1 0 + p.2)) (List.replicate hash_len 0)

/-- The `while` loop of `step_wise_probing` (`src/multi_probe.rs` lines
81–96).  The source keeps `budget` in an `f64`; every value it takes is an
exact integer (`binomial(n, k) * 2` for small arguments), so it is an `ℤ`
here and `take(budget as usize)` is `take budget.toNat`.  `k` runs from 1
while `budget > 0 && k <= n`, so `n` iterations of fuel are exact. -/
def step_wise_probing_loop (n : ℕ) : ℕ → ℕ → ℤ → List (List HashPrimitive) →
    List (List HashPrimitive)
  | 0, _, _, acc => acc
  | fuel + 1, k, budget, acc =>
    if budget > 0 ∧ k ≤ n then
      let emitted := ((step_wise_perturb n k).take budget.toNat).map (apply_perturb n)
      step_wise_probing_loop n fuel (k + 1) (budget - (Nat.choose n k : ℤ) * 2)
        (acc ++ emitted)
    else acc

/-- `step_wise_probing` (`src/multi_probe.rs` lines 74–98). -/
def step_wise_probing (hash_len budget : ℕ) : List (List HashPrimitive) :=
  step_wise_probing_loop hash_len hash_len 1 (budget : ℤ) []

/-- A bucket: `pub type Bucket = FnvHashSet<u32>;` — a hash set of ids,
modelled as a finite set (deterministic, unordered). -/
abbrev Bucket := Finset ℕ

/-- The `HashTables` trait of `src/table/general.rs` (not among the provided
sources), as used by the coordinator in `src/lsh/lsh.rs`: `put` inserts a
vector in one table and returns its id, `delete` removes it from one table,
`query_bucket` returns the bucket at a key or fails.  The coordinator is
generic over the backend (`T: HashTables`), so the operations are fields of
a structure over an abstract state type `σ`. -/
structure HashTables (σ : Type) where
  put : Hash → DataPoint → ℕ → σ → Except Error (ℕ × σ)
  delete : Hash → DataPoint → ℕ → σ → Except Error σ
  query_bucket : Hash → ℕ → σ → Except Error Bucket

/-- Modelled from the spec: the in-memory backend `MemoryTable`
(`src/table/mem.rs`) is not among the provided sources.  Per §3/§4.2 of the
spec it keeps the stored vectors (ids are assigned monotonically; the id of
a vector is its position) and, per hash table index, a mapping from hash
keys to buckets; an absent key is distinguished from an empty bucket. -/
structure MemoryTable where
  entries : List DataPoint
  tables : ℕ → Hash → Option Bucket

/-- The id a vector gets on lookup: its position among the stored entries. -/
def idOf (entries : List DataPoint) (v : DataPoint) : ℕ :=
  match entries with
  | [] => 0
  | e :: rest => if e = v then 0 else idOf rest v + 1

/-- Modelled from the spec (§4.2 `put`): assign a new id on the first
insertion of `v`, reuse it subsequently; insert the id into the bucket at
`(hash, t)`, creating the bucket if the key is absent. -/
def MemoryTable.putCore (hash : Hash) (v : DataPoint) (t : ℕ) (mt : MemoryTable) :
    ℕ × MemoryTable :=
  let idx := if v ∈ mt.entries then idOf mt.entries v else mt.entries.length
  let entries := if v ∈ mt.entries then mt.entries else mt.entries ++ [v]
  let bucket := (mt.tables t hash).getD ∅
  (idx, { entries := entries,
          tables := fun t' h' =>
            if t' = t ∧ h' = hash then some (insert idx bucket) else mt.tables t' h' })

/-- Modelled from the spec (§4.2 `delete`): remove the id of `v` from the
bucket at `(hash, t)`; a no-op when `v` or the key is unknown. -/
def MemoryTable.deleteCore (hash : Hash) (v : DataPoint) (t : ℕ) (mt : MemoryTable) :
    MemoryTable :=
  if v ∈ mt.entries then
    match mt.tables t hash with
    | none => mt
    | some b =>
      { mt with tables := fun t' h' =>
          if t' = t ∧ h' = hash then some (b.erase (idOf mt.entries v))
          else mt.tables t' h' }
  else mt

/-- Modelled from the spec (§4.2 `query_bucket`): `NotFound` when the key is
absent from the table — distinguished from "exists but empty". -/
def MemoryTable.queryCore (hash : Hash) (t : ℕ) (mt : MemoryTable) : Except Error Bucket :=
  match mt.tables t hash with
  | none => .error .NotFound
  | some b => .ok b

/-- The in-memory backend as a `HashTables` instance. -/
def memoryBackend : HashTables MemoryTable where
  put := fun h v t mt => .ok (MemoryTable.putCore h v t mt)
  delete := fun h v t mt => .ok (MemoryTable.deleteCore h v t mt)
  query_bucket := fun h t mt => MemoryTable.queryCore h t mt

/-- A fresh, empty in-memory backend state. -/
def MemoryTable.empty : MemoryTable :=
  { entries := [], tables := fun _ _ => none }

/-- The `LSH` coordinator struct (`src/lsh/lsh.rs` lines 45–64), generic
over the backend state `σ` (the source's `T: HashTables`).  The source keeps
`hash_tables` in an `Option` only to move ownership in and out
(`take`/`replace`); the state itself is the backend value.  Hashers are a
list of `VecHash` instances (the trait objects the coordinator iterates
over). -/
structure LSH (σ : Type) where
  n_hash_tables : ℕ
  n_projections : ℕ
  hashers : List VecHash
  dim : ℕ
  hash_tables : σ
  _seed : ℕ
  only_index_storage : Bool
  _multi_probe : Bool
  _multi_probe_budget : ℕ

/-- The message of `validate_vec`'s `Error::Failed` (`src/lsh/lsh.rs` line
309). -/
def dimErrorMsg : String := "data point is not valid, are the dimensions correct?"

/-- `LSH::validate_vec` (`src/lsh/lsh.rs` lines 306–313). -/
def validate_vec (s : LSH σ) (v : DataPoint) : Except Error Unit :=
  if v.length = s.dim then .ok () else .error (.Failed dimErrorMsg)

/-- `LSH::store_vec` (`src/lsh/lsh.rs` lines 389–400): validate, then for
each `(i, proj)` in `hashers.iter().enumerate()` put `hash_vec_put(v)` into
table `i`; the returned id is the last `put`'s id (`idx` starts at 0). -/
def store_vec (B : HashTables σ) (s : LSH σ) (v : DataPoint) :
    Except Error (ℕ × LSH σ) := do
  let _ ← validate_vec s v
  let r ← s.hashers.enum.foldlM
    (fun (acc : ℕ × σ) p => do
      let pr ← B.put (p.2.hash_vec_put v) v p.1 acc.2
      pure (pr.1, pr.2))
    (0, s.hash_tables)
  pure (r.1, { s with hash_tables := r.2 })

/-- The producer/consumer of `store_vecs` (`src/lsh/lsh.rs` lines 209–229):
the producer sends `(hash_vec_put(v), v, i)` for each `v` in order and each
table index `i` in order over a FIFO channel; the single consumer applies
`put` sequentially, collecting one id per message. -/
def put_messages (hashers : List VecHash) (vs : List DataPoint) :
    List (Hash × DataPoint × ℕ) :=
  vs.flatMap (fun v => hashers.enum.map (fun p => (p.2.hash_vec_put v, v, p.1)))

/-- `LSH::store_vecs` (`src/lsh/lsh.rs` lines 202–232).  Only `vs[0]` is
validated; on an empty batch that indexing panics, modelled as `none`. -/
def store_vecs (B : HashTables σ) (s : LSH σ) (vs : List DataPoint) :
    Option (Except Error (List ℕ × LSH σ)) :=
  match vs with
  | [] => none
  | v0 :: _ =>
    some (do
      let _ ← validate_vec s v0
      let r ← (put_messages s.hashers vs).foldlM
        (fun (acc : List ℕ × σ) m => do
          let pr ← B.put m.1 m.2.1 m.2.2 acc.2
          pure (acc.1 ++ [pr.1], pr.2))
        ([], s.hash_tables)
      pure (r.1, { s with hash_tables := r.2 }))

/-- `LSH::store_array` (`src/lsh/lsh.rs` lines 248–278): the 2-d array is a
list of rows; only row 0 is validated (`vs.slice(s![0, ..])` panics on an
empty array, modelled as `none`); otherwise identical to `store_vecs`. -/
def store_array (B : HashTables σ) (s : LSH σ) (vs : List DataPoint) :
    Option (Except Error (List ℕ × LSH σ)) :=
  match vs with
  | [] => none
  | v0 :: _ =>
    some (do
      let _ ← validate_vec s v0
      let r ← (put_messages s.hashers vs).foldlM
        (fun (acc : List ℕ × σ) m => do
          let pr ← B.put m.1 m.2.1 m.2.2 acc.2
          pure (acc.1 ++ [pr.1], pr.2))
        ([], s.hash_tables)
      pure (r.1, { s with hash_tables := r.2 }))

/-- `LSH::delete_vec` (`src/lsh/lsh.rs` lines 492–501): validate, then for
each `(i, proj)` delete `hash_vec_query(v)` from table `i`; the result of
each backend `delete` is discarded with `unwrap_or_default()`, keeping the
state the backend left behind (in this functional model, the previous state
when the backend reports an error). -/
def delete_vec (B : HashTables σ) (s : LSH σ) (v : DataPoint) :
    Except Error (LSH σ) := do
  let _ ← validate_vec s v
  let ht := s.hashers.enum.foldl
    (fun ht p =>
      match B.delete (p.2.hash_vec_query v) v p.1 ht with
      | .ok ht' => ht'
      | .error _ => ht)
    s.hash_tables
  pure { s with hash_tables := ht }

/-- `LSH::process_bucket_union_result` (`src/lsh/lsh.rs` lines 503–522):
`Err(NotFound)` is recovered as the unchanged union, `Ok(bucket)` is
unioned in, any other error is returned. -/
def process_bucket_union_result (B : HashTables σ) (s : LSH σ) (hash : Hash)
    (hash_table_idx : ℕ) (bucket_union : Bucket) : Except Error Bucket :=
  match B.query_bucket hash hash_table_idx s.hash_tables with
  | .error .NotFound => .ok bucket_union
  | .ok bucket => .ok (bucket_union ∪ bucket)
  | .error e => .error e

/-- Modelled from the spec: `multi_probe_bucket_union` is called by
`query_bucket_union` (`src/lsh/lsh.rs` line 427) but is not among the
provided sources.  Per §4.4 of the spec, for each table the base hash plus
each step-wise perturbation under the budget is probed, `NotFound` is
treated as an empty bucket, and the ids are unioned. -/
def multi_probe_bucket_union (B : HashTables σ) (s : LSH σ) (v : DataPoint) :
    Except Error Bucket :=
  s.hashers.enum.foldlM
    (fun u p =>
      let h := p.2.hash_vec_query v
      (h :: (step_wise_probing s.n_projections s._multi_probe_budget).map
          (fun d => List.zipWith (· + ·) h d)).foldlM
        (fun u' hh => process_bucket_union_result B s hh p.1 u') u)
    (∅ : Bucket)

/-- `LSH::query_bucket_union` (`src/lsh/lsh.rs` lines 424–437). -/
def query_bucket_union (B : HashTables σ) (s : LSH σ) (v : DataPoint) :
    Except Error Bucket := do
  let _ ← validate_vec s v
  if s._multi_probe then multi_probe_bucket_union B s v
  else
    s.hashers.enum.foldlM
      (fun u p => process_bucket_union_result B s (p.2.hash_vec_query v) p.1 u)
      (∅ : Bucket)

/-- `LSH::query_bucket_ids` (`src/lsh/lsh.rs` lines 464–468): validate,
union the buckets over the `L` tables, return the ids.  The source iterates
the `FnvHashSet` into a `Vec` in the set's (deterministic, unspecified)
order; the model lists the set in ascending order. -/
def query_bucket_ids (B : HashTables σ) (s : LSH σ) (v : DataPoint) :
    Except Error (List ℕ) := do
  let _ ← validate_vec s v
  let u ← query_bucket_union B s v
  pure (u.sort (· ≤ ·))

/-- `LSH::query_bucket_ids_batch` (`src/lsh/lsh.rs` lines 474–476):
`vs.iter().map(|v| self.query_bucket_ids(v)).collect()`. -/
def query_bucket_ids_batch (B : HashTables σ) (s : LSH σ) (vs : List DataPoint) :
    Except Error (List (List ℕ)) :=
  vs.mapM (query_bucket_ids B s)

/-- The `rayon` parallel map-collect used by the `_par` batch queries: the
workers each run a read-only pure function and `collect` preserves input
order, so it is modelled as the sequential effect-ordered map. -/
def rayon_par_collect (f : DataPoint → Except Error (List ℕ)) (vs : List DataPoint) :
    Except Error (List (List ℕ)) :=
  vs.mapM f

/-- `LSH::query_bucket_ids_batch_par` (`src/lsh/lsh.rs` lines 166–170):
`vs.into_par_iter().map(|v| self.query_bucket_ids(v)).collect()`. -/
def query_bucket_ids_batch_par (B : HashTables σ) (s : LSH σ) (vs : List DataPoint) :
    Except Error (List (List ℕ)) :=
  rayon_par_collect (query_bucket_ids B s) vs

/-- `IntermediatBlob` (`src/lsh/lsh.rs` lines 543–551; the name keeps the
source's spelling): the serialized state.  `bincode` serialization and the
file system are external to the library; per the round-trip contract of
§4.5 the serialized bytes are modelled by the values themselves. -/
structure IntermediatBlob (σ : Type) where
  hash_tables : σ
  hashers : List VecHash
  n_hash_tables : ℕ
  n_projections : ℕ
  dim : ℕ
  _seed : ℕ

/-- `LSH::dump` (`src/lsh/lsh.rs` lines 575–592): serialize the hash
tables, the hashers and the scalars into the blob. -/
def LSH.dump (s : LSH σ) : IntermediatBlob σ :=
  { hash_tables := s.hash_tables
    hashers := s.hashers
    n_hash_tables := s.n_hash_tables
    n_projections := s.n_projections
    dim := s.dim
    _seed := s._seed }

/-- `LSH::load` (`src/lsh/lsh.rs` lines 558–572): restore the six
serialized fields into `self`; the builder flags (`only_index_storage`,
`_multi_probe`, `_multi_probe_budget`) are not part of the blob and keep
the target's values. -/
def LSH.load (s : LSH σ) (ib : IntermediatBlob σ) : LSH σ :=
  { s with
    hashers := ib.hashers
    hash_tables := ib.hash_tables
    n_hash_tables := ib.n_hash_tables
    n_projections := ib.n_projections
    dim := ib.dim
    _seed := ib._seed }

/-! Concrete instances used by witnesses and counterexamples. -/

/-- A constant user hasher: the `VecHash` trait is public, so such an
instance is part of the library surface. -/
def constHasher : VecHash := ⟨fun _ => [0], fun _ => [0]⟩

/-- A 1-dimensional `SignRandomProjections` hasher with a single
hyperplane. -/
def srpEx : SignRandomProjections := ⟨[[1]]⟩

/-- A fitted MIPS hasher: `U = 1/2`, `M = 1` (fitted on the corpus `[[1]]`,
whose maximal norm is 1), `m = 1`, data dimension 1; the inner `L2` hasher
has dimension `1 + 1 = 2`, one projection with row `[1, 1]`, offset `0` and
slot width `r = 1`.  All hash computations on the inputs below are exact in
`f32`. -/
def mipsEx : MIPS :=
  { U := 1 / 2, M := 1, m := 1, dim := 1
    hasher := { a := [[1, 1]], r := 1, b := [0], n_projections := 1 } }

/-- An unfitted MIPS hasher (`M = 0`, as after `MIPS::new`). -/
def mipsUnfitted : MIPS :=
  { U := 1 / 2, M := 0, m := 1, dim := 1
    hasher := { a := [[1, 1]], r := 1, b := [0], n_projections := 1 } }

/-- An empty one-table in-memory index over the MIPS hasher. -/
def mipsLsh : LSH MemoryTable :=
  { n_hash_tables := 1, n_projections := 1, hashers := [mipsEx.toVecHash]
    dim := 1, hash_tables := MemoryTable.empty, _seed := 1
    only_index_storage := false, _multi_probe := false, _multi_probe_budget := 16 }

/-- An empty one-table in-memory index over the SRP hasher. -/
def srpLsh : LSH MemoryTable :=
  { n_hash_tables := 1, n_projections := 1, hashers := [srpEx.toVecHash]
    dim := 1, hash_tables := MemoryTable.empty, _seed := 1
    only_index_storage := false, _multi_probe := false, _multi_probe_budget := 16 }

/-- An empty two-table in-memory index over constant hashers. -/
def twoTableLsh : LSH MemoryTable :=
  { n_hash_tables := 2, n_projections := 1, hashers := [constHasher, constHasher]
    dim := 1, hash_tables := MemoryTable.empty, _seed := 1
    only_index_storage := false, _multi_probe := false, _multi_probe_budget := 16 }

/-- A backend whose every operation fails with a non-`NotFound` error. -/
def unitFailBackend : HashTables Unit where
  put := fun _ _ _ _ => .error (.Failed "io")
  delete := fun _ _ _ _ => .error (.Failed "io")
  query_bucket := fun _ _ _ => .error (.Failed "io")

/-- A one-table index over the failing backend. -/
def unitLsh : LSH Unit :=
  { n_hash_tables := 1, n_projections := 1, hashers := [constHasher]
    dim := 1, hash_tables := (), _seed := 1
    only_index_storage := false, _multi_probe := false, _multi_probe_budget := 16 }

/-! Pure views of the coordinator's folds over the in-memory backend, used
to reason about `store_vec`, `store_vecs` and `delete_vec`. -/

/-- The consumer loop of `store_vecs` over the in-memory backend: apply the
puts of the messages in order, collecting one id per message. -/
def put_fold (msgs : List (Hash × DataPoint × ℕ)) (acc : List ℕ × MemoryTable) :
    List ℕ × MemoryTable :=
  msgs.foldl
    (fun acc m =>
      (acc.1 ++ [(MemoryTable.putCore m.1 m.2.1 m.2.2 acc.2).1],
       (MemoryTable.putCore m.1 m.2.1 m.2.2 acc.2).2))
    acc

/-- The loop of `store_vec` over the in-memory backend. -/
def put_fold1 (v : DataPoint) (ps : List (ℕ × VecHash)) (acc : ℕ × MemoryTable) :
    ℕ × MemoryTable :=
  ps.foldl (fun acc p => MemoryTable.putCore (p.2.hash_vec_put v) v p.1 acc.2) acc

/-- The loop of `delete_vec` over the in-memory backend. -/
def del_fold (v : DataPoint) (ps : List (ℕ × VecHash)) (mt : MemoryTable) :
    MemoryTable :=
  ps.foldl (fun mt p => MemoryTable.deleteCore (p.2.hash_vec_query v) v p.1 mt) mt

/-- Sequence of `put`s of one vector at a list of `(table, hash)` keys. -/
def puts_ks (v : DataPoint) (ks : List (ℕ × Hash)) (mt : MemoryTable) : MemoryTable :=
  ks.foldl (fun mt k => (MemoryTable.putCore k.2 v k.1 mt).2) mt

/-- Sequence of `delete`s of one vector at a list of `(table, hash)` keys. -/
def dels_ks (v : DataPoint) (ks : List (ℕ × Hash)) (mt : MemoryTable) : MemoryTable :=
  ks.foldl (fun mt k => MemoryTable.deleteCore k.2 v k.1 mt) mt

/-- The id lists `store_vecs` produces on fresh distinct vectors: `l` copies
(one per hash table) of each vector's id, grouped in input order, ids
assigned consecutively from `base`. -/
def assigned_ids (base l : ℕ) : List DataPoint → List ℕ
  | [] => []
  | _ :: rest => List.replicate l base ++ assigned_ids (base + 1) l rest

/-- The backend state after storing `[1]` in `mipsLsh`: the vector got id 0
and the single table holds bucket `{0}` at the put-path hash `[0]`. -/
def mipsStoredTable : MemoryTable :=
  { entries := [[1]]
    tables := fun t' h' => if t' = 0 ∧ h' = [0] then some {0} else none }

/-! Theorems.  The two symmetric hash families have identical put and query
paths; these two lemmas record that for use with the store/delete
round-trip theorem. -/

/-- For SRP the put and query hash paths coincide (`src/hash.rs` 56–64). -/
lemma srp_put_eq_query (s : SignRandomProjections) :
    s.toVecHash.hash_vec_put = s.toVecHash.hash_vec_query := rfl

/-- For L2 the put and query hash paths coincide (`src/hash.rs` 102–114). -/
lemma l2_put_eq_query (s : L2) :
    s.toVecHash.hash_vec_put = s.toVecHash.hash_vec_query := rfl

/-- C5: dumping an in-memory index and loading the blob restores the
hashers, the hash tables and the scalars `(L, K, D, seed)` — into any
target index — and the round trip on an index leaves it unchanged, so every
subsequent `query_bucket_ids` call returns exactly the same result as on
the original index. -/
theorem dump_load_roundtrip :
    ∀ (σ : Type) (B : HashTables σ) (s t : LSH σ) (v : DataPoint),
      s.load s.dump = s
      ∧ (t.load s.dump).hashers = s.hashers
      ∧ (t.load s.dump).hash_tables = s.hash_tables
      ∧ (t.load s.dump).n_hash_tables = s.n_hash_tables
      ∧ (t.load s.dump).n_projections = s.n_projections
      ∧ (t.load s.dump).dim = s.dim
      ∧ (t.load s.dump)._seed = s._seed
      ∧ query_bucket_ids B (s.load s.dump) v = query_bucket_ids B s v :=
  fun _ _ _ _ _ => ⟨rfl, rfl, rfl, rfl, rfl, rfl, rfl, rfl⟩

/-- C6: the parallel and the sequential batch query return identical result
sequences for every index state and every batch (the parallel iterator is a
read-only fan-out whose `collect` preserves input order). -/
theorem query_batch_par_eq_batch :
    ∀ (σ : Type) (B : HashTables σ) (s : LSH σ) (vs : List DataPoint),
      query_bucket_ids_batch_par B s vs = query_bucket_ids_batch B s vs :=
  fun _ _ _ _ => rfl

/-- C7: on a MIPS hasher on which `fit` has not set `M` (i.e. `M == 0`),
`tranform_put` fails with `NotFitted` for every input vector. -/
theorem mips_unfitted_tranform_put (s : MIPS) (x : DataPoint) (h : s.M = 0) :
    s.tranform_put x = .error .NotFitted := by
  simp [MIPS.tranform_put, h]

/-- Witness for C7: the unfitted example hasher has `M = 0` and
`tranform_put` fails with `NotFitted` on the concrete input `[1]`. -/
theorem mips_unfitted_tranform_put_witness :
    mipsUnfitted.M = 0 ∧ mipsUnfitted.tranform_put [1] = .error .NotFitted :=
  ⟨rfl, mips_unfitted_tranform_put mipsUnfitted [1] rfl⟩

/-- C8, counterexample: `step_wise_probing 4 20` never emits the
single-index perturbation `[-1, 0, 0, 0]` (index 0, sign −1), although the
claim asserts that all single-index perturbations — each index, each sign
in {−1,+1} — are emitted first: combination indices `4..8` map to effective
indices `i/2 ∈ {2, 3}`, so sign −1 never reaches indices 0 and 1. -/
theorem step_wise_probing_missing_minus_one :
    [(-1 : ℤ), 0, 0, 0] ∉ step_wise_probing 4 20 := by decide

/-- C8, amended: `step_wise_probing` emits the perturbations derived from
one combination index first, then those from two, and so on until the
budget is exhausted or `K` is reached; within each level the combinations
of indices in `[0, 2K)` are enumerated in lexicographic order, index `i`
contributing `+1` at `i` when `i ≤ K−1` and `−1` at `i/2` otherwise.  For
`K = 4`, budget 20: the first emitted vector is `[1,0,0,0]`, the last is
`[0,1,0,−1]`, 20 vectors are emitted, the first eight are the level-one
vectors in that order, and the first two level-two index combinations are
`[(0,1),(1,1)]` and `[(0,1),(2,1)]`. -/
theorem step_wise_probing_order :
    (step_wise_probing 4 20).head? = some [1, 0, 0, 0]
    ∧ (step_wise_probing 4 20).getLast? = some [0, 1, 0, -1]
    ∧ (step_wise_probing 4 20).length = 20
    ∧ (step_wise_probing 4 20).take 8 =
        [[1, 0, 0, 0], [0, 1, 0, 0], [0, 0, 1, 0], [0, 0, 0, 1],
         [0, 0, -1, 0], [0, 0, -1, 0], [0, 0, 0, -1], [0, 0, 0, -1]]
    ∧ (step_wise_perturb 4 2).take 2 = [[(0, 1), (1, 1)], [(0, 1), (2, 1)]] := by
  refine ⟨by decide, by decide, by decide, by decide, by decide⟩

/-- C9: `store_vecs` and `store_array` read the first element of the batch
unconditionally for dimension validation, so on the empty batch the call
does not return a result (the indexing panics — no `Ok` with an empty id
list is possible), and on every non-empty batch the validation access is
total: the call returns a result. -/
theorem store_batch_nonempty_precondition :
    ∀ (σ : Type) (B : HashTables σ) (s : LSH σ),
      store_vecs B s [] = none ∧ store_array B s [] = none
      ∧ ∀ (v0 : DataPoint) (rest : List DataPoint),
          (∃ r, store_vecs B s (v0 :: rest) = some r)
          ∧ ∃ r, store_array B s (v0 :: rest) = some r :=
  fun _ _ _ => ⟨rfl, rfl, fun _ _ => ⟨⟨_, rfl⟩, ⟨_, rfl⟩⟩⟩

/-- C10: the perturbation vectors of `step_wise_probing` are not confined
to components in {−1, 0, +1}: for `K = 4` and budget 31 the vector
`[0, 0, −2, 0]` is emitted — the combination `[4, 5]` maps both indices to
the effective index 2 with sign −1, so the shifts accumulate. -/
theorem step_wise_probing_component_minus_two :
    [(0 : ℤ), 0, -2, 0] ∈ step_wise_probing 4 31 := by decide

/-- C3, counterexample: a batch whose second vector has the wrong dimension
is not rejected: `store_vecs` on `[[1], [2, 3]]` against a two-table index
of dimension 1 returns ids — not the `Dim` error the claim requires for a
mismatch at any position — because `validate_vec` is applied to `vs[0]`
only (`src/lsh/lsh.rs` line 203). -/
theorem store_vecs_no_dim_check_after_head :
    ((store_vecs memoryBackend twoTableLsh [[1], [2, 3]]).bind
      (fun r => r.toOption)).map (fun p => p.1) = some [0, 0, 1, 1] := by decide

/-- C3, amended: the dimension validation of `store_vecs`/`store_array`
covers only the first vector of the batch: when `vs[0]` has the wrong
length the call fails with the dimension error before any insertion (the
index is unchanged, previously inserted ids remain valid); a mismatch at a
later position is not detected by validation. -/
theorem store_batch_validates_head_only :
    ∀ (σ : Type) (B : HashTables σ) (s : LSH σ) (v0 : DataPoint)
      (rest : List DataPoint),
      v0.length ≠ s.dim →
      store_vecs B s (v0 :: rest) = some (.error (.Failed dimErrorMsg))
      ∧ store_array B s (v0 :: rest) = some (.error (.Failed dimErrorMsg)) := by
  intro σ B s v0 rest h
  have hv : validate_vec s v0 = .error (.Failed dimErrorMsg) := by
    simp [validate_vec, h]
  constructor <;> simp only [store_vecs, store_array, hv] <;> rfl

/-- Witness for C3 (amended): a concrete mismatching head vector `[1, 2]`
against dimension 1 makes both batch stores fail with the dimension
error. -/
theorem store_batch_validates_head_only_witness :
    store_vecs memoryBackend twoTableLsh [[1, 2], [5]] =
      some (.error (.Failed dimErrorMsg))
    ∧ store_array memoryBackend twoTableLsh [[1, 2], [5]] =
      some (.error (.Failed dimErrorMsg)) :=
  store_batch_validates_head_only MemoryTable memoryBackend twoTableLsh
    [1, 2] [[5]] (by decide)

/-- C4, counterexample: a backend whose `delete` fails with the
non-`NotFound` error `Failed "io"` does not surface that error through
`delete_vec`: the call succeeds, because `delete_vec` discards every
backend error with `unwrap_or_default()` (`src/lsh/lsh.rs` line 497). -/
theorem delete_vec_swallows_backend_error :
    delete_vec unitFailBackend unitLsh [1] = .ok unitLsh := rfl

/-- C4, amended: on the query path (`process_bucket_union_result`, hence
`query_bucket_ids`) a backend-internal `NotFound` is recovered locally as
an unchanged union and every other backend error surfaces verbatim, and a
found bucket is unioned in; `delete_vec`, however, discards every backend
error: for any backend whatsoever it succeeds on every vector of the right
dimension. -/
theorem not_found_recovered_delete_swallows :
    ∀ (σ : Type) (B : HashTables σ) (s : LSH σ) (hash : Hash) (i : ℕ)
      (u : Bucket) (v : DataPoint),
      (∀ e, B.query_bucket hash i s.hash_tables = .error e →
        process_bucket_union_result B s hash i u =
          if e = .NotFound then .ok u else .error e)
      ∧ (∀ b, B.query_bucket hash i s.hash_tables = .ok b →
        process_bucket_union_result B s hash i u = .ok (u ∪ b))
      ∧ (v.length = s.dim → ∃ s', delete_vec B s v = .ok s') := by
  intro σ B s hash i u v
  refine ⟨?_, ?_, ?_⟩
  · intro e he
    cases e <;> simp [process_bucket_union_result, he]
  · intro b hb
    simp [process_bucket_union_result, hb]
  · intro hv
    have hval : validate_vec s v = .ok () := by simp [validate_vec, hv]
    exact ⟨_, by simp only [delete_vec, hval]; rfl⟩

/-- Witness for C4 (amended), at the concrete failing backend: the
non-`NotFound` error of `query_bucket` surfaces through
`process_bucket_union_result`, while `delete_vec` succeeds on the
deletion whose backend `delete` failed with that same error. -/
theorem not_found_recovered_delete_swallows_witness :
    process_bucket_union_result unitFailBackend unitLsh [0] 0 ∅ =
      .error (.Failed "io")
    ∧ ∃ s', delete_vec unitFailBackend unitLsh [1] = .ok s' := by
  have h := not_found_recovered_delete_swallows Unit unitFailBackend unitLsh
    [0] 0 ∅ [1]
  refine ⟨?_, h.2.2 rfl⟩
  have h1 := h.1 (.Failed "io") rfl
  rwa [if_neg (fun hc => Error.noConfusion hc)] at h1

/-! Reduction of the coordinator's monadic loops over the in-memory backend
(whose operations never fail) to the pure folds, plus characterizations of
single `put`/`delete` steps. -/

lemma store_vec_mem_eq (s : LSH MemoryTable) (v : DataPoint)
    (hdim : v.length = s.dim) :
    store_vec memoryBackend s v =
      .ok ((put_fold1 v s.hashers.enum (0, s.hash_tables)).1,
        { s with hash_tables := (put_fold1 v s.hashers.enum (0, s.hash_tables)).2 }) := by
  have hval : validate_vec s v = .ok () := by simp [validate_vec, hdim]
  have hfold : ∀ (ps : List (ℕ × VecHash)) (acc : ℕ × MemoryTable),
      (ps.foldlM
        (fun (acc : ℕ × MemoryTable) p => do
          let pr ← memoryBackend.put (p.2.hash_vec_put v) v p.1 acc.2
          pure (pr.1, pr.2))
        acc : Except Error (ℕ × MemoryTable)) = .ok (put_fold1 v ps acc) := by
    intro ps
    induction ps with
    | nil => intro acc; rfl
    | cons p ps ih => intro acc; exact ih _
  simp only [store_vec, hval, hfold]
  rfl

lemma store_vecs_mem_eq (s : LSH MemoryTable) (v0 : DataPoint)
    (rest : List DataPoint) (hdim : v0.length = s.dim) :
    store_vecs memoryBackend s (v0 :: rest) =
      some (.ok
        ((put_fold (put_messages s.hashers (v0 :: rest)) ([], s.hash_tables)).1,
         { s with hash_tables :=
            (put_fold (put_messages s.hashers (v0 :: rest)) ([], s.hash_tables)).2 })) := by
  have hval : validate_vec s v0 = .ok () := by simp [validate_vec, hdim]
  have hfold : ∀ (msgs : List (Hash × DataPoint × ℕ)) (acc : List ℕ × MemoryTable),
      (msgs.foldlM
        (fun (acc : List ℕ × MemoryTable) m => do
          let pr ← memoryBackend.put m.1 m.2.1 m.2.2 acc.2
          pure (acc.1 ++ [pr.1], pr.2))
        acc : Except Error (List ℕ × MemoryTable)) = .ok (put_fold msgs acc) := by
    intro msgs
    induction msgs with
    | nil => intro acc; rfl
    | cons m ms ih => intro acc; exact ih _
  simp only [store_vecs, hval, hfold]
  rfl

lemma delete_vec_mem_eq (s : LSH MemoryTable) (v : DataPoint)
    (hdim : v.length = s.dim) :
    delete_vec memoryBackend s v =
      .ok { s with hash_tables := del_fold v s.hashers.enum s.hash_tables } := by
  have hval : validate_vec s v = .ok () := by simp [validate_vec, hdim]
  simp only [delete_vec, hval]
  rfl

lemma idOf_append_self (E : List DataPoint) (v : DataPoint) (h : v ∉ E) :
    idOf (E ++ [v]) v = E.length := by
  induction E with
  | nil => simp [idOf]
  | cons e E ih =>
    have h1 : e ≠ v := by rintro rfl; exact h (List.mem_cons_self _ _)
    have h2 : v ∉ E := fun hm => h (List.mem_cons_of_mem _ hm)
    simp [idOf, h1, ih h2]

lemma putCore_present (hsh : Hash) (v : DataPoint) (t : ℕ) (mt : MemoryTable)
    (hv : v ∈ mt.entries) :
    MemoryTable.putCore hsh v t mt =
      (idOf mt.entries v,
       { entries := mt.entries
         tables := fun t' h' =>
           if t' = t ∧ h' = hsh then
             some (insert (idOf mt.entries v) ((mt.tables t hsh).getD ∅))
           else mt.tables t' h' }) := by
  simp [MemoryTable.putCore, hv]

lemma putCore_fresh (hsh : Hash) (v : DataPoint) (t : ℕ) (mt : MemoryTable)
    (hv : v ∉ mt.entries) :
    MemoryTable.putCore hsh v t mt =
      (mt.entries.length,
       { entries := mt.entries ++ [v]
         tables := fun t' h' =>
           if t' = t ∧ h' = hsh then
             some (insert mt.entries.length ((mt.tables t hsh).getD ∅))
           else mt.tables t' h' }) := by
  simp [MemoryTable.putCore, hv]

lemma deleteCore_entries (hsh : Hash) (v : DataPoint) (t : ℕ) (mt : MemoryTable) :
    (MemoryTable.deleteCore hsh v t mt).entries = mt.entries := by
  unfold MemoryTable.deleteCore
  by_cases hv : v ∈ mt.entries
  · rw [if_pos hv]
    cases hmt : mt.tables t hsh <;> rfl
  · rw [if_neg hv]

lemma deleteCore_tables (hsh : Hash) (v : DataPoint) (t : ℕ) (mt : MemoryTable)
    (hv : v ∈ mt.entries) (t' : ℕ) (h' : Hash) :
    (MemoryTable.deleteCore hsh v t mt).tables t' h' =
      if t' = t ∧ h' = hsh then
        (mt.tables t' h').map (fun b => b.erase (idOf mt.entries v))
      else mt.tables t' h' := by
  unfold MemoryTable.deleteCore
  rw [if_pos hv]
  cases hmt : mt.tables t hsh with
  | none =>
    by_cases hc : t' = t ∧ h' = hsh
    · obtain ⟨rfl, rfl⟩ := hc
      simp [hmt]
    · rw [if_neg hc]
  | some b =>
    by_cases hc : t' = t ∧ h' = hsh
    · obtain ⟨rfl, rfl⟩ := hc
      simp [hmt]
    · simp only [if_neg hc]

lemma puts_ks_present (v : DataPoint) :
    ∀ (ks : List (ℕ × Hash)) (mt : MemoryTable), v ∈ mt.entries →
      (puts_ks v ks mt).entries = mt.entries
      ∧ ∀ t h, (puts_ks v ks mt).tables t h =
          if (t, h) ∈ ks then
            some (insert (idOf mt.entries v) ((mt.tables t h).getD ∅))
          else mt.tables t h := by
  intro ks
  induction ks with
  | nil =>
    intro mt hv
    exact ⟨rfl, fun t h => by simp [puts_ks]⟩
  | cons k ks ih =>
    intro mt hv
    have hput := putCore_present k.2 v k.1 mt hv
    have hstep : puts_ks v (k :: ks) mt = puts_ks v ks (MemoryTable.putCore k.2 v k.1 mt).2 := rfl
    have hent1 : (MemoryTable.putCore k.2 v k.1 mt).2.entries = mt.entries := by
      rw [hput]
    have htab1 : ∀ t h, (MemoryTable.putCore k.2 v k.1 mt).2.tables t h =
        if t = k.1 ∧ h = k.2 then
          some (insert (idOf mt.entries v) ((mt.tables k.1 k.2).getD ∅))
        else mt.tables t h := by
      intro t h
      rw [hput]
    have hv1 : v ∈ (MemoryTable.putCore k.2 v k.1 mt).2.entries := by
      rw [hent1]; exact hv
    obtain ⟨hent, htab⟩ := ih _ hv1
    refine ⟨by rw [hstep, hent, hent1], ?_⟩
    intro t h
    rw [hstep, htab t h, hent1]
    by_cases h1 : (t, h) ∈ ks <;> by_cases h2 : t = k.1 ∧ h = k.2
    · obtain ⟨rfl, rfl⟩ := h2
      simp [htab1, h1, Finset.insert_idem, List.mem_cons]
    · have hne : (t, h) ≠ k := by
        rintro rfl; exact h2 ⟨rfl, rfl⟩
      simp [htab1, h1, h2, List.mem_cons, hne]
    · obtain ⟨rfl, rfl⟩ := h2
      simp [htab1, h1, List.mem_cons]
    · have hne : (t, h) ≠ k := by
        rintro rfl; exact h2 ⟨rfl, rfl⟩
      simp [htab1, h1, h2, List.mem_cons, hne]

lemma dels_ks_spec (v : DataPoint) :
    ∀ (ks : List (ℕ × Hash)) (mt : MemoryTable), v ∈ mt.entries →
      (dels_ks v ks mt).entries = mt.entries
      ∧ ∀ t h, (dels_ks v ks mt).tables t h =
          if (t, h) ∈ ks then
            (mt.tables t h).map (fun b => b.erase (idOf mt.entries v))
          else mt.tables t h := by
  intro ks
  induction ks with
  | nil =>
    intro mt hv
    exact ⟨rfl, fun t h => by simp [dels_ks]⟩
  | cons k ks ih =>
    intro mt hv
    have hstep : dels_ks v (k :: ks) mt = dels_ks v ks (MemoryTable.deleteCore k.2 v k.1 mt) := rfl
    have hent1 := deleteCore_entries k.2 v k.1 mt
    have htab1 : ∀ t h, (MemoryTable.deleteCore k.2 v k.1 mt).tables t h =
        if t = k.1 ∧ h = k.2 then
          (mt.tables t h).map (fun b => b.erase (idOf mt.entries v))
        else mt.tables t h :=
      fun t h => deleteCore_tables k.2 v k.1 mt hv t h
    have hv1 : v ∈ (MemoryTable.deleteCore k.2 v k.1 mt).entries := by
      rw [hent1]; exact hv
    obtain ⟨hent, htab⟩ := ih _ hv1
    refine ⟨by rw [hstep, hent, hent1], ?_⟩
    intro t h
    rw [hstep, htab t h, hent1]
    by_cases h1 : (t, h) ∈ ks <;> by_cases h2 : t = k.1 ∧ h = k.2
    · obtain ⟨rfl, rfl⟩ := h2
      simp only [htab1, and_self, if_true, List.mem_cons, h1, or_true, Option.map_map]
      congr 1
      funext b
      simp [Finset.erase_idem]
    · have hne : (t, h) ≠ k := by
        rintro rfl; exact h2 ⟨rfl, rfl⟩
      simp [htab1, h1, h2, List.mem_cons, hne]
    · obtain ⟨rfl, rfl⟩ := h2
      simp [htab1, h1, List.mem_cons]
    · have hne : (t, h) ≠ k := by
        rintro rfl; exact h2 ⟨rfl, rfl⟩
      simp [htab1, h1, h2, List.mem_cons, hne]

lemma put_fold1_snd (v : DataPoint) :
    ∀ (ps : List (ℕ × VecHash)) (acc : ℕ × MemoryTable),
      (put_fold1 v ps acc).2 =
        puts_ks v (ps.map (fun p => (p.1, p.2.hash_vec_put v))) acc.2 := by
  intro ps
  induction ps with
  | nil => intro acc; rfl
  | cons p ps ih => intro acc; exact ih _

lemma del_fold_eq (v : DataPoint) :
    ∀ (ps : List (ℕ × VecHash)) (mt : MemoryTable),
      del_fold v ps mt =
        dels_ks v (ps.map (fun p => (p.1, p.2.hash_vec_query v))) mt := by
  intro ps
  induction ps with
  | nil => intro mt; rfl
  | cons p ps ih => intro mt; exact ih _

/-- Storing one fresh vector at a list of keys and then deleting it at the
same keys restores every bucket's membership (the key may become an
explicitly empty bucket, which holds the same ids as an absent key). -/
lemma store_delete_ks (v : DataPoint) (ks : List (ℕ × Hash)) (mt : MemoryTable)
    (hfresh : v ∉ mt.entries)
    (hid : ∀ t h, mt.entries.length ∉ (mt.tables t h).getD ∅) :
    ∀ t h, ((dels_ks v ks (puts_ks v ks mt)).tables t h).getD ∅ =
      (mt.tables t h).getD ∅ := by
  cases ks with
  | nil => intro t h; rfl
  | cons k0 ks' =>
    have hp0 := putCore_fresh k0.2 v k0.1 mt hfresh
    have hent1 : (MemoryTable.putCore k0.2 v k0.1 mt).2.entries = mt.entries ++ [v] := by
      rw [hp0]
    have htab1 : ∀ t h, (MemoryTable.putCore k0.2 v k0.1 mt).2.tables t h =
        if t = k0.1 ∧ h = k0.2 then
          some (insert mt.entries.length ((mt.tables k0.1 k0.2).getD ∅))
        else mt.tables t h := by
      intro t h; rw [hp0]
    have hv1 : v ∈ (MemoryTable.putCore k0.2 v k0.1 mt).2.entries := by
      rw [hent1]; exact List.mem_append_right _ (List.mem_singleton_self v)
    have hid1 : idOf (MemoryTable.putCore k0.2 v k0.1 mt).2.entries v = mt.entries.length := by
      rw [hent1]; exact idOf_append_self _ _ hfresh
    have hputs : puts_ks v (k0 :: ks') mt = puts_ks v ks' (MemoryTable.putCore k0.2 v k0.1 mt).2 := rfl
    obtain ⟨hentP, htabP⟩ := puts_ks_present v ks' _ hv1
    have hvP : v ∈ (puts_ks v ks' (MemoryTable.putCore k0.2 v k0.1 mt).2).entries := by
      rw [hentP]; exact hv1
    have hidP : idOf (puts_ks v ks' (MemoryTable.putCore k0.2 v k0.1 mt).2).entries v =
        mt.entries.length := by
      rw [hentP, hid1]
    have htabPfull : ∀ t h,
        (puts_ks v ks' (MemoryTable.putCore k0.2 v k0.1 mt).2).tables t h =
          if (t, h) ∈ k0 :: ks' then
            some (insert mt.entries.length ((mt.tables t h).getD ∅))
          else mt.tables t h := by
      intro t h
      rw [htabP t h, hid1]
      by_cases h1 : (t, h) ∈ ks' <;> by_cases h2 : t = k0.1 ∧ h = k0.2
      · obtain ⟨rfl, rfl⟩ := h2
        simp [htab1, h1, Finset.insert_idem, List.mem_cons]
      · have hne : (t, h) ≠ k0 := by
          rintro rfl; exact h2 ⟨rfl, rfl⟩
        simp [htab1, h1, h2, List.mem_cons, hne]
      · obtain ⟨rfl, rfl⟩ := h2
        simp [htab1, h1, List.mem_cons]
      · have hne : (t, h) ≠ k0 := by
          rintro rfl; exact h2 ⟨rfl, rfl⟩
        simp [htab1, h1, h2, List.mem_cons, hne]
    obtain ⟨hentD, htabD⟩ := dels_ks_spec v (k0 :: ks') _ hvP
    intro t h
    rw [hputs, htabD t h, hidP]
    by_cases hmem : (t, h) ∈ k0 :: ks'
    · rw [if_pos hmem, htabPfull t h, if_pos hmem]
      have hnotin : mt.entries.length ∉ (mt.tables t h).getD ∅ := hid t h
      simp [Finset.erase_insert hnotin]
    · rw [if_neg hmem, htabPfull t h, if_neg hmem]

lemma snd_mem_of_enumFrom {α : Type} :
    ∀ (l : List α) (n : ℕ) (p : ℕ × α), p ∈ l.enumFrom n → p.2 ∈ l := by
  intro l
  induction l with
  | nil => intro n p hp; cases hp
  | cons a l ih =>
    intro n p hp
    rcases List.mem_cons.mp hp with hh | h
    · rw [hh]; exact List.mem_cons_self _ _
    · exact List.mem_cons_of_mem _ (ih (n + 1) p h)

/-- C1 (amended): for every hasher family whose put and query hash paths
coincide — in particular SRP and L2 (`srp_put_eq_query`, `l2_put_eq_query`)
— storing a not-previously-stored vector of the right dimension and then
deleting it restores every bucket of the in-memory index to its pre-insert
membership; no other vector's membership changes, and the vector's entry
(its allocated id) may remain.  For MIPS the two paths differ and the
property fails (see the counterexample on the concrete MIPS index). -/
theorem store_delete_restores_membership (s : LSH MemoryTable) (v : DataPoint)
    (hsym : ∀ hs ∈ s.hashers, VecHash.hash_vec_put hs = VecHash.hash_vec_query hs)
    (hdim : v.length = s.dim)
    (hfresh : v ∉ s.hash_tables.entries)
    (hid : ∀ t h, s.hash_tables.entries.length ∉ (s.hash_tables.tables t h).getD ∅) :
    ∃ idx s1 s2,
      store_vec memoryBackend s v = .ok (idx, s1)
      ∧ delete_vec memoryBackend s1 v = .ok s2
      ∧ ∀ t h, (s2.hash_tables.tables t h).getD ∅ =
          (s.hash_tables.tables t h).getD ∅ := by
  refine ⟨_, _, _, store_vec_mem_eq s v hdim, delete_vec_mem_eq _ v hdim, ?_⟩
  intro t h
  show ((del_fold v s.hashers.enum
      (put_fold1 v s.hashers.enum (0, s.hash_tables)).2).tables t h).getD ∅ = _
  rw [del_fold_eq, put_fold1_snd]
  have hks : s.hashers.enum.map (fun p => (p.1, p.2.hash_vec_put v)) =
      s.hashers.enum.map (fun p => (p.1, p.2.hash_vec_query v)) := by
    apply List.map_congr_left
    intro p hp
    rw [hsym p.2 (snd_mem_of_enumFrom _ 0 _ hp)]
  rw [← hks]
  exact store_delete_ks v _ s.hash_tables hfresh hid t h

/-- Witness for C1 (amended), on the concrete SRP index: store `[1]` into
the empty one-table index, delete it again, and every bucket's membership
is back to the (empty) pre-insert state. -/
theorem store_delete_restores_membership_witness :
    ∃ idx s1 s2,
      store_vec memoryBackend srpLsh [1] = .ok (idx, s1)
      ∧ delete_vec memoryBackend s1 [1] = .ok s2
      ∧ ∀ t h, (s2.hash_tables.tables t h).getD ∅ =
          (srpLsh.hash_tables.tables t h).getD ∅ :=
  store_delete_restores_membership srpLsh [1]
    (by intro hs hmem
        rcases List.mem_singleton.mp hmem with rfl
        rfl)
    rfl
    (by simp [srpLsh, MemoryTable.empty])
    (by intro t h; simp [srpLsh, MemoryTable.empty])

/-! Evaluation of the concrete MIPS hasher on the input `[1]`: the put path
hashes to `[0]`, the query path to `[1]` (exact `f32` arithmetic). -/

lemma l2_norm_single_one : l2_norm [1] = 1 := by
  have h : ((0 : ℚ) + 1 * 1) = 1 := by norm_num
  simp only [l2_norm, List.foldl_cons, List.foldl_nil, h]
  rw [ratSqrt, Rat.num_one, Rat.den_one]
  have h1 : natSqrtAux 1 = 1 := by decide
  have h2 : natSqrtAux (Int.toNat 1) = 1 := by decide
  rw [h1, h2]
  norm_num

lemma mips_put_hash_eval : mipsEx.toVecHash.hash_vec_put [1] = [0] := by
  have htp : mipsEx.tranform_put [1] = .ok [1 / 2, 1 / 4] := by
    rw [MIPS.tranform_put, if_neg (by norm_num [mipsEx])]
    have hr : List.range 1 = [0] := by decide
    simp only [mipsEx, hr, List.map_cons, List.map_nil, List.foldl_cons, List.foldl_nil,
      Except.ok.injEq, List.cons_append, List.nil_append,
      List.cons.injEq, and_true]
    norm_num
  show (match mipsEx.tranform_put [1] with
        | .ok p => mipsEx.hasher.hash_and_cast_vec p
        | .error _ => []) = [0]
  rw [htp]
  show mipsEx.hasher.hash_and_cast_vec [1 / 2, 1 / 4] = [0]
  simp only [L2.hash_and_cast_vec, matDotVec, dotList, mipsEx, List.map_cons,
    List.map_nil, List.zip_cons_cons, List.zip_nil_right, List.foldl_cons,
    List.foldl_nil, List.zipWith_cons_cons, List.zipWith_nil_right,
    List.cons.injEq, and_true]
  norm_num

lemma mips_query_hash_eval : mipsEx.toVecHash.hash_vec_query [1] = [1] := by
  show mipsEx.hasher.hash_and_cast_vec (mipsEx.transform_query [1]) = [1]
  have htq : mipsEx.transform_query [1] = [1, 1 / 2] := by
    simp only [MIPS.transform_query, l2_norm_single_one, mipsEx, List.map_cons,
      List.map_nil, List.replicate, List.cons_append, List.nil_append,
      List.cons.injEq, and_true]
    norm_num
  rw [htq]
  simp only [L2.hash_and_cast_vec, matDotVec, dotList, mipsEx, List.map_cons,
    List.map_nil, List.zip_cons_cons, List.zip_nil_right, List.foldl_cons,
    List.foldl_nil, List.zipWith_cons_cons, List.zipWith_nil_right,
    List.cons.injEq, and_true]
  norm_num

lemma mips_store_eval :
    store_vec memoryBackend mipsLsh [1] =
      .ok (0, { mipsLsh with hash_tables := mipsStoredTable }) := by
  rw [store_vec_mem_eq mipsLsh [1] rfl]
  have hp : put_fold1 [1] mipsLsh.hashers.enum (0, mipsLsh.hash_tables) =
      (0, mipsStoredTable) := by
    show put_fold1 [1] [(0, mipsEx.toVecHash)] (0, MemoryTable.empty) = (0, mipsStoredTable)
    simp only [put_fold1, List.foldl_cons, List.foldl_nil, mips_put_hash_eval]
    rfl
  rw [hp]

lemma mips_delete_eval :
    delete_vec memoryBackend { mipsLsh with hash_tables := mipsStoredTable } [1] =
      .ok { mipsLsh with hash_tables := mipsStoredTable } := by
  rw [delete_vec_mem_eq _ [1] rfl]
  have hd : del_fold [1] [(0, mipsEx.toVecHash)] mipsStoredTable = mipsStoredTable := by
    simp only [del_fold, List.foldl_cons, List.foldl_nil, mips_query_hash_eval]
    rfl
  show Except.ok { mipsLsh with
    hash_tables := del_fold [1] [(0, mipsEx.toVecHash)] mipsStoredTable } =
    .ok { mipsLsh with hash_tables := mipsStoredTable }
  rw [hd]

/-- C1, counterexample: on the concrete fitted MIPS index, `store_vec([1])`
followed by `delete_vec([1])` does not return the index to its pre-insert
membership: the bucket of table 0 at the put-path hash `[0]` still contains
the id 0 afterwards (it was empty before the store), because `delete_vec`
deletes at the query-path hash `[1]`, which differs from the put-path hash
for the asymmetric MIPS family. -/
theorem mips_store_delete_leaves_id_behind :
    (store_vec memoryBackend mipsLsh [1]).toOption.bind
      (fun r => (delete_vec memoryBackend r.2 [1]).toOption.map
        (fun s2 => (s2.hash_tables.tables 0 [0]).getD ∅)) = some {0}
    ∧ (mipsLsh.hash_tables.tables 0 [0]).getD ∅ = (∅ : Bucket) := by
  refine ⟨?_, rfl⟩
  rw [mips_store_eval]
  show (delete_vec memoryBackend { mipsLsh with hash_tables := mipsStoredTable }
      [1]).toOption.map (fun s2 => (s2.hash_tables.tables 0 [0]).getD ∅) = some {0}
  rw [mips_delete_eval]
  rfl

/-! The id sequence of `store_vecs` over the in-memory backend: one id per
message (vector × table), ids assigned by first occurrence. -/

lemma put_fold_cons (m : Hash × DataPoint × ℕ) (ms : List (Hash × DataPoint × ℕ))
    (ids : List ℕ) (mt : MemoryTable) :
    put_fold (m :: ms) (ids, mt) =
      put_fold ms (ids ++ [(MemoryTable.putCore m.1 m.2.1 m.2.2 mt).1],
        (MemoryTable.putCore m.1 m.2.1 m.2.2 mt).2) := rfl

lemma put_fold_append (a b : List (Hash × DataPoint × ℕ)) (acc : List ℕ × MemoryTable) :
    put_fold (a ++ b) acc = put_fold b (put_fold a acc) := by
  simp [put_fold, List.foldl_append]

lemma put_fold_present (v : DataPoint) :
    ∀ (msgs : List (Hash × DataPoint × ℕ)) (mt : MemoryTable) (acc : List ℕ),
      (∀ m ∈ msgs, m.2.1 = v) → v ∈ mt.entries →
      (put_fold msgs (acc, mt)).1 =
        acc ++ List.replicate msgs.length (idOf mt.entries v)
      ∧ (put_fold msgs (acc, mt)).2.entries = mt.entries := by
  intro msgs
  induction msgs with
  | nil =>
    intro mt acc _ _
    exact ⟨by simp [put_fold], rfl⟩
  | cons m ms ih =>
    intro mt acc hall hv
    have hm : m.2.1 = v := hall m (List.mem_cons_self _ _)
    have hcore := putCore_present m.1 v m.2.2 mt hv
    have hidx : (MemoryTable.putCore m.1 m.2.1 m.2.2 mt).1 = idOf mt.entries v := by
      rw [hm, hcore]
    have hent1 : (MemoryTable.putCore m.1 m.2.1 m.2.2 mt).2.entries = mt.entries := by
      rw [hm, hcore]
    have hv1 : v ∈ (MemoryTable.putCore m.1 m.2.1 m.2.2 mt).2.entries := by
      rw [hent1]; exact hv
    obtain ⟨h1, h2⟩ := ih (MemoryTable.putCore m.1 m.2.1 m.2.2 mt).2
      (acc ++ [(MemoryTable.putCore m.1 m.2.1 m.2.2 mt).1])
      (fun x hx => hall x (List.mem_cons_of_mem _ hx)) hv1
    rw [put_fold_cons, h1, h2, hent1, hidx]
    refine ⟨?_, rfl⟩
    rw [List.append_assoc]
    simp [List.replicate_succ]

lemma put_fold_fresh (v : DataPoint) (msgs : List (Hash × DataPoint × ℕ))
    (mt : MemoryTable) (acc : List ℕ)
    (hall : ∀ m ∈ msgs, m.2.1 = v) (hv : v ∉ mt.entries) (hne : msgs ≠ []) :
    (put_fold msgs (acc, mt)).1 =
      acc ++ List.replicate msgs.length mt.entries.length
    ∧ (put_fold msgs (acc, mt)).2.entries = mt.entries ++ [v] := by
  cases msgs with
  | nil => exact absurd rfl hne
  | cons m ms =>
    have hm : m.2.1 = v := hall m (List.mem_cons_self _ _)
    have hcore := putCore_fresh m.1 v m.2.2 mt hv
    have hidx : (MemoryTable.putCore m.1 m.2.1 m.2.2 mt).1 = mt.entries.length := by
      rw [hm, hcore]
    have hent1 : (MemoryTable.putCore m.1 m.2.1 m.2.2 mt).2.entries =
        mt.entries ++ [v] := by
      rw [hm, hcore]
    have hv1 : v ∈ (MemoryTable.putCore m.1 m.2.1 m.2.2 mt).2.entries := by
      rw [hent1]; exact List.mem_append_right _ (List.mem_singleton_self v)
    have hido : idOf (MemoryTable.putCore m.1 m.2.1 m.2.2 mt).2.entries v =
        mt.entries.length := by
      rw [hent1]; exact idOf_append_self _ _ hv
    obtain ⟨h1, h2⟩ := put_fold_present v ms (MemoryTable.putCore m.1 m.2.1 m.2.2 mt).2
      (acc ++ [(MemoryTable.putCore m.1 m.2.1 m.2.2 mt).1])
      (fun x hx => hall x (List.mem_cons_of_mem _ hx)) hv1
    rw [put_fold_cons, h1, h2, hido, hent1, hidx]
    refine ⟨?_, rfl⟩
    rw [List.append_assoc]
    simp [List.replicate_succ]

lemma put_fold_grouped (hashers : List VecHash) (hL : hashers ≠ []) :
    ∀ (vs : List DataPoint) (mt : MemoryTable) (acc : List ℕ),
      vs.Nodup → (∀ u ∈ vs, u ∉ mt.entries) →
      (put_fold (put_messages hashers vs) (acc, mt)).1 =
        acc ++ assigned_ids mt.entries.length hashers.length vs
      ∧ (put_fold (put_messages hashers vs) (acc, mt)).2.entries = mt.entries ++ vs := by
  intro vs
  induction vs with
  | nil =>
    intro mt acc _ _
    exact ⟨by simp [put_messages, put_fold, assigned_ids], by simp [put_messages, put_fold]⟩
  | cons v vs ih =>
    intro mt acc hnd hfr
    have hsplit : put_messages hashers (v :: vs) =
        hashers.enum.map (fun p => (p.2.hash_vec_put v, v, p.1))
          ++ put_messages hashers vs := by
      simp [put_messages]
    have hallv : ∀ m ∈ hashers.enum.map (fun p => (p.2.hash_vec_put v, v, p.1)),
        m.2.1 = v := by
      intro m hm
      obtain ⟨p, _, rfl⟩ := List.mem_map.mp hm
      rfl
    have hlen : (hashers.enum.map (fun p => (p.2.hash_vec_put v, v, p.1))).length =
        hashers.length := by
      simp
    have hne : hashers.enum.map (fun p => (p.2.hash_vec_put v, v, p.1)) ≠ [] := by
      intro hc
      apply hL
      rw [← List.length_eq_zero, ← hlen, hc, List.length_nil]
    obtain ⟨hA1, hA2⟩ := put_fold_fresh v _ mt acc hallv
      (hfr v (List.mem_cons_self _ _)) hne
    have hfr' : ∀ u ∈ vs,
        u ∉ (put_fold (hashers.enum.map (fun p => (p.2.hash_vec_put v, v, p.1)))
          (acc, mt)).2.entries := by
      intro u hu
      rw [hA2]
      intro hmem
      rcases List.mem_append.mp hmem with hl | hr
      · exact hfr u (List.mem_cons_of_mem _ hu) hl
      · rw [List.mem_singleton.mp hr] at hu
        exact (List.nodup_cons.mp hnd).1 hu
    obtain ⟨hB1, hB2⟩ := ih
      (put_fold (hashers.enum.map (fun p => (p.2.hash_vec_put v, v, p.1))) (acc, mt)).2
      (put_fold (hashers.enum.map (fun p => (p.2.hash_vec_put v, v, p.1))) (acc, mt)).1
      (List.nodup_cons.mp hnd).2 hfr'
    rw [hsplit, put_fold_append, ← Prod.mk.eta
      (p := put_fold (hashers.enum.map (fun p => (p.2.hash_vec_put v, v, p.1))) (acc, mt))]
    constructor
    · rw [hB1, hA1, hA2, hlen]
      simp [assigned_ids, List.length_append, List.append_assoc]
    · rw [hB2, hA2]
      simp

/-- C2 (amended): over the in-memory backend, `store_vecs` on a non-empty
batch of pairwise-distinct, not-previously-stored vectors (first vector of
the right dimension, at least one hash table) returns `L` ids per input
vector — the id of `vs[j]` repeated once per table — grouped in input
order, with consecutively increasing ids across the batch: the first
insertion of `vs[i]` gets an id less than the first insertion of
`vs[i+1]`.  The returned list therefore has `vs.length * L` entries, not
one per input vector. -/
theorem store_vecs_l_ids_per_vector (s : LSH MemoryTable) (v0 : DataPoint)
    (rest : List DataPoint)
    (hL : s.hashers ≠ [])
    (hdim : v0.length = s.dim)
    (hnodup : (v0 :: rest).Nodup)
    (hfresh : ∀ u ∈ v0 :: rest, u ∉ s.hash_tables.entries) :
    ∃ s', store_vecs memoryBackend s (v0 :: rest) =
      some (.ok (assigned_ids s.hash_tables.entries.length s.hashers.length
        (v0 :: rest), s')) := by
  obtain ⟨h1, _⟩ := put_fold_grouped s.hashers hL (v0 :: rest) s.hash_tables []
    hnodup hfresh
  exact ⟨_, by rw [store_vecs_mem_eq s v0 rest hdim, h1, List.nil_append]⟩

/-- Witness for C2 (amended): two distinct fresh vectors into the empty
two-table index; `assigned_ids 0 2 [[1], [2]]` is `[0, 0, 1, 1]`. -/
theorem store_vecs_l_ids_per_vector_witness :
    ∃ s', store_vecs memoryBackend twoTableLsh [[1], [2]] =
      some (.ok (assigned_ids 0 2 [[1], [2]], s')) :=
  store_vecs_l_ids_per_vector twoTableLsh [1] [[2]]
    (List.cons_ne_nil _ _) rfl (by decide) (by decide)

/-- C2, counterexample: storing the two vectors `[[1], [2]]` in a two-table
(`L = 2`) index returns the id list `[0, 0, 1, 1]` — four ids, two per
input vector — so the returned list does not pair with the inputs
positionally (one id per input vector), as the claim requires. -/
theorem store_vecs_not_one_id_per_vector :
    ((store_vecs memoryBackend twoTableLsh [[1], [2]]).bind
      (fun r => r.toOption)).map (fun p => p.1) = some [0, 0, 1, 1] := by decide

end LshRs
